import Mathlib

/-!
Shallow embedding of the Bloom filter package (Go sources `bloom/bloom.go`,
`bloom/bloom_safe.go`): the `BloomFilter` structure, its constructors, the
FNV-1a based double hashing, and the bit-array operations, together with
proofs of the specification's claims about them.

Modelling conventions:
* `uint64` values are natural numbers; every operation that can wrap in Go
  (multiplication, the probe sum `h1 + i*h2`, the word-count sum `m + 63`)
  is reduced `% 2 ^ 64` exactly where Go wraps.
* Go byte slices are `List (Fin 256)`.
* Go panics are modelled by `Except BloomError`: the two constructor panics
  map to `invalidParameter`, the defensive `Add`/`MightContain` guard to
  `notInitialized`, and a slice index out of range to `indexOutOfRange`.
-/

namespace Bloom

/-- A Go byte. -/
abbrev Byte := Fin 256

/-- The panics the Go code can raise: the constructors' parameter panics,
the defensive not-initialized guard in `Add`/`MightContain`, and a Go
runtime slice-bounds panic. -/
inductive BloomError where
  | invalidParameter
  | notInitialized
  | indexOutOfRange
  deriving DecidableEq

/-- `BloomFilter` from `bloom.go`: `m` bits, `k` hash functions, and the
bitset storage `bits []uint64` (each word is a `Nat` kept `< 2 ^ 64`). -/
structure BloomFilter where
  m : Nat
  k : Nat
  bits : List Nat
  deriving DecidableEq

/-- FNV-1a 64-bit offset basis (`fnv64Offset` in the source). -/
def fnv64Offset : Nat := 14695981039346656037

/-- FNV-1a 64-bit prime (`fnv64Prime` in the source). -/
def fnv64Prime : Nat := 1099511628211

/-- `fnv64a`: for each byte, XOR into the accumulator then multiply by the
prime; the multiplication wraps mod `2 ^ 64` (the XOR cannot overflow). -/
def fnv64a (data : List Byte) : Nat :=
  data.foldl (fun acc b => (acc ^^^ b.val) * fnv64Prime % 2 ^ 64) fnv64Offset

/-- `fnv64aSalted`: same loop as `fnv64a` but the offset basis is XORed
with a salt. -/
def fnv64aSalted (data : List Byte) (salt : Nat) : Nat :=
  data.foldl (fun acc b => (acc ^^^ b.val) * fnv64Prime % 2 ^ 64) (fnv64Offset ^^^ salt)

/-- `hash128`: two 64-bit hashes of the same input, the second from the
salted offset basis. -/
def hash128 (data : List Byte) : Nat × Nat :=
  (fnv64a data, fnv64aSalted data 0x9e3779b97f4a7c15)

/-- `setBit`: `bits[pos/64] |= 1 << (pos % 64)`; Go panics when
`pos / 64` is outside the slice, modelled as `indexOutOfRange`. -/
def setBit (bits : List Nat) (pos : Nat) : Except BloomError (List Nat) :=
  if h : pos / 64 < bits.length then
    .ok (bits.set (pos / 64) (bits[pos / 64] ||| 1 <<< (pos % 64)))
  else
    .error .indexOutOfRange

/-- `getBit`: `bits[pos/64] & (1 << (pos % 64)) != 0`, with the same
bounds behaviour as `setBit`. -/
def getBit (bits : List Nat) (pos : Nat) : Except BloomError Bool :=
  if h : pos / 64 < bits.length then
    .ok ((bits[pos / 64] &&& 1 <<< (pos % 64)) != 0)
  else
    .error .indexOutOfRange

/-- The `for i := 0; i < k; i++ { setBit(pos_i) }` loop of `Add`, folded
over the precomputed list of probe positions. -/
def setLoop : List Nat → List Nat → Except BloomError (List Nat)
  | bits, [] => .ok bits
  | bits, pos :: rest =>
    match setBit bits pos with
    | .ok bits' => setLoop bits' rest
    | .error e => .error e

/-- The probe loop of `MightContain`: returns `false` at the first unset
bit, `true` once every probed bit was found set. -/
def probeLoop (bits : List Nat) : List Nat → Except BloomError Bool
  | [] => .ok true
  | pos :: rest =>
    match getBit bits pos with
    | .ok true => probeLoop bits rest
    | .ok false => .ok false
    | .error e => .error e

/-- `New(m, k)`: panics (`invalidParameter`) when `m == 0` or `k == 0`;
otherwise allocates `(m + 63) / 64` zero words — the addition `m + 63`
is uint64 addition, hence the `% 2 ^ 64`. -/
def New (m k : Nat) : Except BloomError BloomFilter :=
  if m = 0 then .error .invalidParameter
  else if k = 0 then .error .invalidParameter
  else .ok ⟨m, k, List.replicate ((m + 63) % 2 ^ 64 / 64) 0⟩

/-- A Go `float64` value as far as the constructor's validation can
observe it: a finite value (every finite `float64` is an exact rational),
one of the two infinities, or NaN. -/
inductive Float64 where
  | finite (val : ℚ)
  | inf
  | negInf
  | nan
  deriving DecidableEq

/-- IEEE-754 comparison `x <= c` of a `float64` against a finite literal
constant (here `0.0`): false whenever `x` is NaN. -/
def Float64.leNum : Float64 → ℚ → Bool
  | .finite q, c => q ≤ c
  | .inf, _ => false
  | .negInf, _ => true
  | .nan, _ => false

/-- IEEE-754 comparison `x >= c` of a `float64` against a finite literal
constant (here `1.0`): false whenever `x` is NaN. -/
def Float64.geNum : Float64 → ℚ → Bool
  | .finite q, c => c ≤ q
  | .inf, _ => true
  | .negInf, _ => false
  | .nan, _ => false

/-- The real-number reading of "`fpRate` lies in the open interval
`(0, 1)`": only a finite value strictly between 0 and 1 qualifies
(±Inf and NaN lie outside the interval). -/
def Float64.inOpenUnit : Float64 → Prop
  | .finite q => 0 < q ∧ q < 1
  | _ => False

/-- `NewWithEstimates(n, fpRate)`. The validation (`n == 0`, then
`fpRate <= 0.0 || fpRate >= 1.0` with IEEE semantics — both comparisons
false on NaN) and the final clamping/delegation are from the source; the
two raw `uint64(math.Ceil(...))` results of the IEEE-754 computation —
whose semantics are outside this embedding — are taken as the parameters
`mRaw` and `kRaw`. -/
def NewWithEstimates (n : Nat) (fpRate : Float64) (mRaw kRaw : Nat) :
    Except BloomError BloomFilter :=
  if n = 0 then .error .invalidParameter
  else if fpRate.leNum 0 || fpRate.geNum 1 then .error .invalidParameter
  else New (if mRaw = 0 then 1 else mRaw) (if kRaw = 0 then 1 else kRaw)

/-- `Add(data)`: the defensive guard, the two hashes, the `h2 == 0`
substitution, and the double-hashing store loop, all inlined as in the
source body. -/
def Add (bf : BloomFilter) (data : List Byte) : Except BloomError BloomFilter :=
  if bf.m = 0 ∨ bf.k = 0 then .error .notInitialized
  else
    Except.map (fun bits => ⟨bf.m, bf.k, bits⟩)
      (setLoop bf.bits ((List.range bf.k).map (fun i =>
        ((hash128 data).1 + i *
          (if (hash128 data).2 = 0 then 0x9e3779b97f4a7c15 else (hash128 data).2))
          % 2 ^ 64 % bf.m)))

/-- `MightContain(data)`: same guard, hash derivation and probe sequence
as `Add`, testing bits instead of setting them. -/
def MightContain (bf : BloomFilter) (data : List Byte) : Except BloomError Bool :=
  if bf.m = 0 ∨ bf.k = 0 then .error .notInitialized
  else
    probeLoop bf.bits ((List.range bf.k).map (fun i =>
      ((hash128 data).1 + i *
        (if (hash128 data).2 = 0 then 0x9e3779b97f4a7c15 else (hash128 data).2))
        % 2 ^ 64 % bf.m))

/-- `Reset()`: the loop `for i := range bits { bits[i] = 0 }`. -/
def Reset (bf : BloomFilter) : BloomFilter :=
  ⟨bf.m, bf.k, bf.bits.map (fun _ => 0)⟩

/-- `Info()`: `fmt.Sprintf("BloomFilter\x7bm=%d bits, k=%d\x7d", m, k)`. -/
def Info (bf : BloomFilter) : String :=
  "BloomFilter\x7bm=" ++ toString bf.m ++ " bits, k=" ++ toString bf.k ++ "\x7d"

/-- The effective second hash after the degenerate-seed substitution. -/
def effectiveH2 (data : List Byte) : Nat :=
  if (hash128 data).2 = 0 then 0x9e3779b97f4a7c15 else (hash128 data).2

/-- The double-hashing probe sequence `(h1 + i*h2) mod m` for
`i = 0, …, k-1`, with uint64 wrap-around on the inner sum. -/
def probeSeq (m k : Nat) (data : List Byte) : List Nat :=
  (List.range k).map (fun i =>
    ((hash128 data).1 + i * effectiveH2 data) % 2 ^ 64 % m)

/-- A sequence of `Add` calls (used to state claims about call traces). -/
def addAll : BloomFilter → List (List Byte) → Except BloomError BloomFilter
  | bf, [] => .ok bf
  | bf, x :: xs =>
    match Add bf x with
    | .ok bf' => addAll bf' xs
    | .error e => .error e

/-! ### Bit-level lemmas -/

theorem and_mask_bne (w b : Nat) : ((w &&& 1 <<< b) != 0) = w.testBit b := by
  rw [Nat.one_shiftLeft, Nat.and_two_pow]
  cases h : w.testBit b
  · simp [h]
  · simp [h, (Nat.two_pow_pos b).ne']

theorem or_two_pow_of_testBit (w b : Nat) (h : w.testBit b = true) : w ||| 2 ^ b = w := by
  refine Nat.eq_of_testBit_eq fun j => ?_
  rw [Nat.testBit_or]
  by_cases hj : j = b
  · subst hj; simp [h]
  · simp [Nat.testBit_two_pow_of_ne (Ne.symm hj)]

theorem getD_set_self (l : List Nat) (i : Nat) (v : Nat) (h : i < l.length) :
    (l.set i v).getD i 0 = v := by
  simp [List.getD_eq_getElem?_getD, List.getElem?_set_self h]

theorem getD_set_ne (l : List Nat) (i j v : Nat) (h : i ≠ j) :
    (l.set i v).getD j 0 = l.getD j 0 := by
  simp [List.getD_eq_getElem?_getD, List.getElem?_set_ne h]

theorem set_getD_self (l : List Nat) (i : Nat) (h : i < l.length) :
    l.set i (l.getD i 0) = l := by
  refine List.ext_getElem? fun j => ?_
  by_cases hj : i = j
  · subst hj
    simp [List.getElem?_set_self h, List.getD_eq_getElem?_getD, List.getElem?_eq_getElem h]
  · simp [List.getElem?_set_ne hj]

/-! ### `setBit` / `getBit` characterisations -/

theorem setBit_ok_iff (bits : List Nat) (pos : Nat) (bits' : List Nat) :
    setBit bits pos = .ok bits' ↔
      pos / 64 < bits.length ∧
        bits' = bits.set (pos / 64) (bits.getD (pos / 64) 0 ||| 1 <<< (pos % 64)) := by
  rw [setBit]
  split
  case isTrue h =>
    simp only [Except.ok.injEq, h, true_and]
    rw [List.getD_eq_getElem?_getD, List.getElem?_eq_getElem h]
    exact ⟨fun h' => h'.symm, fun h' => h'.symm⟩
  case isFalse h =>
    simp [h]

theorem getBit_ok_true_iff (bits : List Nat) (pos : Nat) :
    getBit bits pos = .ok true ↔
      pos / 64 < bits.length ∧ (bits.getD (pos / 64) 0).testBit (pos % 64) = true := by
  rw [getBit]
  split
  case isTrue h =>
    rw [List.getD_eq_getElem?_getD, List.getElem?_eq_getElem h]
    simp [h, and_mask_bne]
  case isFalse h =>
    simp [h]

theorem setBit_length (bits bits' : List Nat) (pos : Nat)
    (h : setBit bits pos = .ok bits') : bits'.length = bits.length := by
  rw [setBit_ok_iff] at h
  rw [h.2, List.length_set]

theorem getBit_setBit_self (bits bits' : List Nat) (pos : Nat)
    (h : setBit bits pos = .ok bits') : getBit bits' pos = .ok true := by
  rw [setBit_ok_iff] at h
  obtain ⟨hlt, rfl⟩ := h
  rw [getBit_ok_true_iff]
  refine ⟨by simpa using hlt, ?_⟩
  rw [getD_set_self _ _ _ hlt, Nat.one_shiftLeft, Nat.testBit_or,
    Nat.testBit_two_pow_self, Bool.or_true]

theorem getBit_setBit_mono (bits bits' : List Nat) (pos pos' : Nat)
    (hset : setBit bits pos' = .ok bits') (hget : getBit bits pos = .ok true) :
    getBit bits' pos = .ok true := by
  rw [setBit_ok_iff] at hset
  obtain ⟨hlt', rfl⟩ := hset
  rw [getBit_ok_true_iff] at hget ⊢
  refine ⟨by simpa using hget.1, ?_⟩
  by_cases hw : pos' / 64 = pos / 64
  · rw [← hw, getD_set_self _ _ _ hlt', Nat.one_shiftLeft, Nat.testBit_or, hw, hget.2,
      Bool.true_or]
  · rw [getD_set_ne _ _ _ _ hw]
    exact hget.2

theorem setBit_of_getBit_true (bits : List Nat) (pos : Nat)
    (h : getBit bits pos = .ok true) : setBit bits pos = .ok bits := by
  rw [getBit_ok_true_iff] at h
  obtain ⟨hlt, htb⟩ := h
  rw [setBit_ok_iff]
  refine ⟨hlt, ?_⟩
  rw [Nat.one_shiftLeft, or_two_pow_of_testBit _ _ htb, set_getD_self _ _ hlt]

/-! ### `setLoop` / `probeLoop` lemmas -/

theorem setLoop_spec (l : List Nat) :
    ∀ bits bits' : List Nat, setLoop bits l = .ok bits' →
      bits'.length = bits.length ∧
        (∀ pos, getBit bits pos = .ok true → getBit bits' pos = .ok true) ∧
        (∀ pos ∈ l, getBit bits' pos = .ok true) := by
  induction l with
  | nil =>
    intro bits bits' h
    rw [setLoop] at h
    cases h
    exact ⟨rfl, fun _ h => h, by simp⟩
  | cons p rest ih =>
    intro bits bits' h
    rw [setLoop] at h
    cases hset : setBit bits p with
    | error e => rw [hset] at h; cases h
    | ok bits₁ =>
      rw [hset] at h
      obtain ⟨hlen, hmono, hall⟩ := ih bits₁ bits' h
      refine ⟨hlen.trans (setBit_length _ _ _ hset), ?_, ?_⟩
      · intro pos hpos
        exact hmono pos (getBit_setBit_mono _ _ _ _ hset hpos)
      · intro pos hpos
        rcases List.mem_cons.mp hpos with rfl | hmem
        · exact hmono pos (getBit_setBit_self _ _ _ hset)
        · exact hall pos hmem

theorem setLoop_of_all_set (l : List Nat) :
    ∀ bits : List Nat, (∀ pos ∈ l, getBit bits pos = .ok true) →
      setLoop bits l = .ok bits := by
  induction l with
  | nil => intro bits _; rw [setLoop]
  | cons p rest ih =>
    intro bits hall
    rw [setLoop, setBit_of_getBit_true bits p (hall p (by simp))]
    exact ih bits fun pos hpos => hall pos (List.mem_cons_of_mem _ hpos)

theorem probeLoop_of_all_set (l : List Nat) (bits : List Nat)
    (hall : ∀ pos ∈ l, getBit bits pos = .ok true) :
    probeLoop bits l = .ok true := by
  induction l with
  | nil => rw [probeLoop]
  | cons p rest ih =>
    rw [probeLoop, hall p (by simp)]
    exact ih fun pos hpos => hall pos (List.mem_cons_of_mem _ hpos)

theorem probeLoop_zeros (n : Nat) (l : List Nat) (hne : l ≠ [])
    (hfst : ∀ pos ∈ l, pos / 64 < n) :
    probeLoop (List.replicate n 0) l = .ok false := by
  cases l with
  | nil => exact absurd rfl hne
  | cons p rest =>
    have hlt : p / 64 < n := hfst p (by simp)
    have hget : getBit (List.replicate n 0) p = .ok false := by
      rw [getBit]
      rw [dif_pos (by simpa using hlt)]
      simp
    rw [probeLoop, hget]

/-! ### Operation-level lemmas -/

theorem New_ok_inv (m k : Nat) (bf : BloomFilter) (h : New m k = .ok bf) :
    m ≠ 0 ∧ k ≠ 0 ∧ bf = ⟨m, k, List.replicate ((m + 63) % 2 ^ 64 / 64) 0⟩ := by
  rw [New] at h
  split at h
  · cases h
  · split at h
    · cases h
    · cases h
      refine ⟨by assumption, by assumption, rfl⟩

theorem probeSeq_mem_lt (m k : Nat) (data : List Byte) (hm : m ≠ 0) :
    ∀ pos ∈ probeSeq m k data, pos < m := by
  intro pos hpos
  rw [probeSeq] at hpos
  obtain ⟨i, _, rfl⟩ := List.mem_map.mp hpos
  exact Nat.mod_lt _ (Nat.pos_of_ne_zero hm)

theorem probeSeq_ne_nil (m k : Nat) (data : List Byte) (hk : k ≠ 0) :
    probeSeq m k data ≠ [] := by
  rw [probeSeq]
  simp [hk]

theorem Add_ok_inv (bf bf' : BloomFilter) (data : List Byte)
    (h : Add bf data = .ok bf') :
    ¬(bf.m = 0 ∨ bf.k = 0) ∧ bf'.m = bf.m ∧ bf'.k = bf.k ∧
      setLoop bf.bits (probeSeq bf.m bf.k data) = .ok bf'.bits := by
  rw [Add] at h
  split at h
  · cases h
  · rename_i hguard
    refine ⟨hguard, ?_⟩
    rw [show ((List.range bf.k).map (fun i =>
        ((hash128 data).1 + i *
          (if (hash128 data).2 = 0 then 0x9e3779b97f4a7c15 else (hash128 data).2))
          % 2 ^ 64 % bf.m)) = probeSeq bf.m bf.k data by rw [probeSeq, effectiveH2]] at h
    cases hloop : setLoop bf.bits (probeSeq bf.m bf.k data) with
    | error e => rw [hloop] at h; simp only [Except.map] at h; cases h
    | ok bits₁ =>
      rw [hloop] at h
      simp only [Except.map] at h
      cases h
      exact ⟨rfl, rfl, rfl⟩

theorem Add_eq_map (bf : BloomFilter) (data : List Byte) (hguard : ¬(bf.m = 0 ∨ bf.k = 0)) :
    Add bf data =
      Except.map (fun bits => ⟨bf.m, bf.k, bits⟩) (setLoop bf.bits (probeSeq bf.m bf.k data)) := by
  rw [Add, if_neg hguard, probeSeq, effectiveH2]

theorem MightContain_eq (bf : BloomFilter) (data : List Byte)
    (hguard : ¬(bf.m = 0 ∨ bf.k = 0)) :
    MightContain bf data = probeLoop bf.bits (probeSeq bf.m bf.k data) := by
  rw [MightContain, if_neg hguard, probeSeq, effectiveH2]

theorem addAll_ok_inv (l : List (List Byte)) :
    ∀ bf bf' : BloomFilter, addAll bf l = .ok bf' →
      bf'.m = bf.m ∧ bf'.k = bf.k ∧
        (∀ pos, getBit bf.bits pos = .ok true → getBit bf'.bits pos = .ok true) := by
  induction l with
  | nil =>
    intro bf bf' h
    rw [addAll] at h
    cases h
    exact ⟨rfl, rfl, fun _ h => h⟩
  | cons x xs ih =>
    intro bf bf' h
    rw [addAll] at h
    cases hadd : Add bf x with
    | error e => rw [hadd] at h; cases h
    | ok bf₁ =>
      rw [hadd] at h
      obtain ⟨hm, hk, hmono⟩ := ih bf₁ bf' h
      obtain ⟨_, hm₁, hk₁, hloop⟩ := Add_ok_inv bf bf₁ x hadd
      refine ⟨hm.trans hm₁, hk.trans hk₁, ?_⟩
      intro pos hpos
      exact hmono pos ((setLoop_spec _ _ _ hloop).2.1 pos hpos)

/-! ### Claims -/

/-- Claim C1. No false negatives: whatever state the filter is in, once
`Add x` succeeds, any further sequence of successful `Add` calls (and no
`Reset`) leaves `MightContain x` returning `true`. The constructed-filter
trace of the claim (`New`, then earlier `Add` calls) is instantiated by
`bf1`. -/
theorem c1_no_false_negatives (m k : Nat) (bf0 bf1 bf2 bf3 : BloomFilter)
    (pre post : List (List Byte)) (x : List Byte)
    (_hnew : New m k = .ok bf0)
    (_hpre : addAll bf0 pre = .ok bf1)
    (hx : Add bf1 x = .ok bf2)
    (hpost : addAll bf2 post = .ok bf3) :
    MightContain bf3 x = .ok true := by
  obtain ⟨hguard, hm2, hk2, hloop⟩ := Add_ok_inv bf1 bf2 x hx
  obtain ⟨hm3, hk3, hmono⟩ := addAll_ok_inv post bf2 bf3 hpost
  have hguard3 : ¬(bf3.m = 0 ∨ bf3.k = 0) := by
    rw [hm3, hm2, hk3, hk2]; exact hguard
  rw [MightContain_eq bf3 x hguard3]
  have hseq : probeSeq bf3.m bf3.k x = probeSeq bf1.m bf1.k x := by
    rw [hm3, hm2, hk3, hk2]
  rw [hseq]
  refine probeLoop_of_all_set _ _ fun pos hpos => ?_
  exact hmono pos ((setLoop_spec _ _ _ hloop).2.2 pos hpos)

/-- Witness for C1 at `New 1 1`, adding the empty byte sequence. -/
theorem c1_witness : MightContain ⟨1, 1, [1]⟩ [] = .ok true :=
  c1_no_false_negatives 1 1 ⟨1, 1, [0]⟩ ⟨1, 1, [0]⟩ ⟨1, 1, [1]⟩ ⟨1, 1, [1]⟩ [] [] []
    rfl rfl rfl rfl

/-- Counterexample to Claim C2 as stated: for the constructed filter
`New (2^64 - 1) 1` the uint64 word-count computation wraps to `0` words,
and after `Reset` the query panics (index out of range) instead of
returning `false`. -/
theorem c2_counterexample :
    ((New (2 ^ 64 - 1) 1).bind fun bf => MightContain (Reset bf) []) ≠ .ok false := by
  intro h
  have h0 : ((New (2 ^ 64 - 1) 1).bind fun bf => MightContain (Reset bf) []) =
      .error .indexOutOfRange := rfl
  rw [h0] at h
  cases h

/-- Claim C2, amended: `Reset` zeroes every word of the bit array, and for
every filter whose bit array covers its `m` bits (`m ≤ 64·wordCount`,
which `New` guarantees except when `m + 63` overflows uint64),
`MightContain` returns `false` for every input after `Reset`. -/
theorem c2_reset_clears (bf : BloomFilter) (x : List Byte)
    (hm : bf.m ≠ 0) (hk : bf.k ≠ 0) (hcov : bf.m ≤ 64 * bf.bits.length) :
    (Reset bf).bits = List.replicate bf.bits.length 0 ∧
      MightContain (Reset bf) x = .ok false := by
  have hbits : (Reset bf).bits = List.replicate bf.bits.length 0 := by
    rw [Reset]; exact List.map_const' _ _
  refine ⟨hbits, ?_⟩
  have hguard : ¬((Reset bf).m = 0 ∨ (Reset bf).k = 0) := by
    rw [Reset]; simp [hm, hk]
  rw [MightContain_eq _ _ hguard]
  have hmeq : (Reset bf).m = bf.m := rfl
  have hkeq : (Reset bf).k = bf.k := rfl
  rw [hbits, hmeq, hkeq]
  refine probeLoop_zeros _ _ (probeSeq_ne_nil _ _ _ hk) ?_
  intro pos hpos
  have hlt := probeSeq_mem_lt bf.m bf.k x hm pos hpos
  omega

/-- Witness for the amended C2 at the one-bit filter with its bit set. -/
theorem c2_witness :
    (Reset ⟨1, 1, [1]⟩).bits = List.replicate 1 0 ∧
      MightContain (Reset ⟨1, 1, [1]⟩) [] = .ok false :=
  c2_reset_clears ⟨1, 1, [1]⟩ [] (by decide) (by decide) (by decide)

/-- Counterexample to Claim C3 as stated: NaN lies outside the open
interval `(0, 1)` and `n = 5 ≠ 0`, yet both validation comparisons are
false on NaN, so `NewWithEstimates 5 NaN` passes validation and returns
a filter instead of failing with `invalidParameter`. -/
theorem c3_counterexample :
    ¬ Float64.inOpenUnit .nan ∧
      Float64.leNum .nan 0 = false ∧ Float64.geNum .nan 1 = false ∧
      (NewWithEstimates 5 .nan 0 0).isOk = true ∧
      NewWithEstimates 5 .nan 0 0 ≠ .error .invalidParameter := by
  refine ⟨?_, rfl, rfl, rfl, ?_⟩
  · simp [Float64.inOpenUnit]
  · intro h
    have h0 : NewWithEstimates 5 Float64.nan 0 0 = .ok ⟨1, 1, [0]⟩ := rfl
    rw [h0] at h
    cases h

/-- Claim C3, amended: `New` fails with `invalidParameter` iff `m = 0` or
`k = 0`, and succeeds otherwise; `NewWithEstimates` fails with
`invalidParameter` iff `n = 0` or `fpRate` is a non-NaN value outside the
open interval `(0, 1)` — NaN, although outside `(0, 1)`, passes the IEEE
validation comparisons and yields a filter — and succeeds on every other
input. -/
theorem c3_parameter_validation_amended :
    (∀ m k : Nat, New m k = .error .invalidParameter ↔ m = 0 ∨ k = 0) ∧
    (∀ m k : Nat, (New m k).isOk = true ↔ ¬(m = 0 ∨ k = 0)) ∧
    (∀ (n : Nat) (fpRate : Float64) (mRaw kRaw : Nat),
      NewWithEstimates n fpRate mRaw kRaw = .error .invalidParameter ↔
        n = 0 ∨ (fpRate ≠ .nan ∧ ¬ fpRate.inOpenUnit)) ∧
    (∀ (n : Nat) (fpRate : Float64) (mRaw kRaw : Nat),
      (NewWithEstimates n fpRate mRaw kRaw).isOk = true ↔
        ¬(n = 0 ∨ (fpRate ≠ .nan ∧ ¬ fpRate.inOpenUnit))) := by
  have hmclamp : ∀ mRaw : Nat, (if mRaw = 0 then 1 else mRaw) ≠ 0 := by
    intro mRaw; by_cases h : mRaw = 0 <;> simp [h]
  have hcmp : ∀ fpRate : Float64,
      (fpRate.leNum 0 || fpRate.geNum 1) = true ↔
        fpRate ≠ .nan ∧ ¬ fpRate.inOpenUnit := by
    intro fpRate
    cases fpRate with
    | finite q =>
      simp only [Float64.leNum, Float64.geNum, Float64.inOpenUnit, Bool.or_eq_true,
        decide_eq_true_eq, ne_eq]
      rw [not_and_or, not_lt, not_lt]
      simp
    | inf => simp [Float64.leNum, Float64.geNum, Float64.inOpenUnit]
    | negInf => simp [Float64.leNum, Float64.geNum, Float64.inOpenUnit]
    | nan => simp [Float64.leNum, Float64.geNum, Float64.inOpenUnit]
  refine ⟨?_, ?_, ?_, ?_⟩
  · intro m k
    by_cases hm : m = 0
    · simp [New, hm]
    · by_cases hk : k = 0 <;> simp [New, hm, hk]
  · intro m k
    by_cases hm : m = 0
    · simp [New, hm, Except.isOk, Except.toBool]
    · by_cases hk : k = 0 <;> simp [New, hm, hk, Except.isOk, Except.toBool]
  · intro n fpRate mRaw kRaw
    by_cases hn : n = 0
    · simp [NewWithEstimates, hn]
    · rw [NewWithEstimates, if_neg hn]
      by_cases hb : (fpRate.leNum 0 || fpRate.geNum 1) = true
      · rw [if_pos hb]
        simp [hn, (hcmp fpRate).mp hb]
      · rw [if_neg hb, New, if_neg (hmclamp mRaw), if_neg (hmclamp kRaw)]
        have hnc : ¬(fpRate ≠ .nan ∧ ¬ fpRate.inOpenUnit) :=
          fun hc => hb ((hcmp fpRate).mpr hc)
        simp [hn, hnc]
  · intro n fpRate mRaw kRaw
    by_cases hn : n = 0
    · simp [NewWithEstimates, hn, Except.isOk, Except.toBool]
    · rw [NewWithEstimates, if_neg hn]
      by_cases hb : (fpRate.leNum 0 || fpRate.geNum 1) = true
      · rw [if_pos hb]
        simp [hn, (hcmp fpRate).mp hb, Except.isOk, Except.toBool]
      · rw [if_neg hb, New, if_neg (hmclamp mRaw), if_neg (hmclamp kRaw)]
        have hnc : ¬(fpRate ≠ .nan ∧ ¬ fpRate.inOpenUnit) :=
          fun hc => hb ((hcmp fpRate).mpr hc)
        simp [hn, hnc, Except.isOk, Except.toBool]

/-- Witness for the amended C3: each validation branch exercised at
concrete inputs (a zero size, a valid explicit pair, an out-of-range
rate, and a rate strictly inside `(0, 1)`). -/
theorem c3_witness :
    New 0 5 = .error .invalidParameter ∧ (New 64 2).isOk = true ∧
      NewWithEstimates 7 .inf 0 0 = .error .invalidParameter ∧
      (NewWithEstimates 7 (.finite (1 / 2)) 9586 7).isOk = true :=
  ⟨(c3_parameter_validation_amended.1 0 5).mpr (Or.inl rfl),
   (c3_parameter_validation_amended.2.1 64 2).mpr (by decide),
   (c3_parameter_validation_amended.2.2.1 7 .inf 0 0).mpr
     (Or.inr ⟨by decide, by simp [Float64.inOpenUnit]⟩),
   (c3_parameter_validation_amended.2.2.2 7 (.finite (1 / 2)) 9586 7).mpr
     (by norm_num [Float64.inOpenUnit])⟩

/-- Claim C5 (code bug evaluation): at `m = 2^64 - 1` the Go word-count
expression `(m + 63) / 64` wraps modulo `2^64`, so `New` allocates an
empty bit array even though `⌈m/64⌉ = 288230376151711744` and an empty
array does not satisfy `wordCount × 64 ≥ m`. -/
theorem c5_wordcount_overflow_eval :
    New (2 ^ 64 - 1) 1 = .ok ⟨2 ^ 64 - 1, 1, []⟩ ∧
      ((2 ^ 64 - 1) + 63) / 64 = 288230376151711744 ∧
      ¬(2 ^ 64 - 1 ≤ 64 * (List.length ([] : List Nat))) :=
  ⟨rfl, by norm_num, by decide⟩

/-- Claim C6. `Add` and `MightContain` derive the same pair of hashes
(`hash128`, the second from the salted offset basis over the same bytes),
substitute the fixed odd constant when `h2 = 0`, and both fold over the
identical probe sequence `(h1 + i·h2) mod 2^64 mod m`, `i = 0..k-1`. -/
theorem c6_probe_agreement (bf : BloomFilter) (data : List Byte)
    (hguard : ¬(bf.m = 0 ∨ bf.k = 0)) :
    Add bf data =
        Except.map (fun bits => ⟨bf.m, bf.k, bits⟩)
          (setLoop bf.bits (probeSeq bf.m bf.k data)) ∧
      MightContain bf data = probeLoop bf.bits (probeSeq bf.m bf.k data) ∧
      hash128 data = (fnv64a data, fnv64aSalted data 0x9e3779b97f4a7c15) ∧
      probeSeq bf.m bf.k data =
        (List.range bf.k).map (fun i =>
          ((hash128 data).1 + i * effectiveH2 data) % 2 ^ 64 % bf.m) ∧
      effectiveH2 data ≠ 0 ∧
      ((hash128 data).2 ≠ 0 → effectiveH2 data = (hash128 data).2) ∧
      ((hash128 data).2 = 0 →
        effectiveH2 data = 0x9e3779b97f4a7c15 ∧ (0x9e3779b97f4a7c15 : Nat) % 2 = 1) := by
  refine ⟨Add_eq_map bf data hguard, MightContain_eq bf data hguard, rfl, rfl, ?_, ?_, ?_⟩
  · rw [effectiveH2]
    split
    · decide
    · assumption
  · intro h; rw [effectiveH2, if_neg h]
  · intro h; exact ⟨by rw [effectiveH2, if_pos h], by decide⟩

/-- Witness for C6 at the one-bit filter and the empty byte sequence. -/
theorem c6_witness :
    Add ⟨1, 1, [0]⟩ [] =
        Except.map (fun bits => (⟨1, 1, bits⟩ : BloomFilter))
          (setLoop [0] (probeSeq 1 1 [])) ∧
      MightContain ⟨1, 1, [0]⟩ [] = probeLoop [0] (probeSeq 1 1 []) ∧
      hash128 [] = (fnv64a [], fnv64aSalted [] 0x9e3779b97f4a7c15) ∧
      probeSeq 1 1 [] =
        (List.range 1).map (fun i => ((hash128 []).1 + i * effectiveH2 []) % 2 ^ 64 % 1) ∧
      effectiveH2 [] ≠ 0 ∧
      ((hash128 []).2 ≠ 0 → effectiveH2 [] = (hash128 []).2) ∧
      ((hash128 []).2 = 0 →
        effectiveH2 [] = 0x9e3779b97f4a7c15 ∧ (0x9e3779b97f4a7c15 : Nat) % 2 = 1) :=
  c6_probe_agreement ⟨1, 1, [0]⟩ [] (by decide)

/-- Claim C7 (code bug evaluation): the probe positions do lie in
`[0, m)`, but for the constructed filter `New (2^64 - 1) 1` the derived
word index is outside the (empty, because the word count wrapped)
bit array, and `Add` hits the out-of-range index. -/
theorem c7_index_out_of_range_eval :
    ((New (2 ^ 64 - 1) 1).bind fun bf => Add bf []) = .error .indexOutOfRange ∧
      (∀ pos ∈ probeSeq (2 ^ 64 - 1) 1 [], pos < 2 ^ 64 - 1) :=
  ⟨rfl, by decide⟩

/-- Claim C8. `Add` is idempotent in effect: a second `Add` of the same
item returns exactly the state the first one produced. -/
theorem c8_add_idempotent (bf bf' : BloomFilter) (x : List Byte)
    (h : Add bf x = .ok bf') : Add bf' x = .ok bf' := by
  obtain ⟨hguard, hm, hk, hloop⟩ := Add_ok_inv bf bf' x h
  have hguard' : ¬(bf'.m = 0 ∨ bf'.k = 0) := by rw [hm, hk]; exact hguard
  rw [Add_eq_map bf' x hguard']
  have hseq : probeSeq bf'.m bf'.k x = probeSeq bf.m bf.k x := by rw [hm, hk]
  rw [hseq, setLoop_of_all_set _ _ (setLoop_spec _ _ _ hloop).2.2]
  rfl

/-- Witness for C8: re-adding the empty byte sequence to `⟨1,1,[1]⟩`. -/
theorem c8_witness : Add ⟨1, 1, [1]⟩ [] = .ok ⟨1, 1, [1]⟩ :=
  c8_add_idempotent ⟨1, 1, [0]⟩ ⟨1, 1, [1]⟩ [] rfl

/-- Claim C9. `MightContain` and `Info` are pure functions of the
filter's fields `m`, `k` and `bits` alone: any two filters agreeing on
them give identical results (in this embedding neither operation returns
a new state — only `Add` and `Reset` do — so neither can modify the
filter). -/
theorem c9_pure_query (bf1 bf2 : BloomFilter) (data : List Byte)
    (hm : bf1.m = bf2.m) (hk : bf1.k = bf2.k) (hbits : bf1.bits = bf2.bits) :
    MightContain bf1 data = MightContain bf2 data ∧ Info bf1 = Info bf2 := by
  cases bf1
  cases bf2
  cases hm
  cases hk
  cases hbits
  exact ⟨rfl, rfl⟩

/-- Witness for C9 at a concrete filter. -/
theorem c9_witness :
    MightContain ⟨2, 3, [5]⟩ [] = MightContain ⟨2, 3, [5]⟩ [] ∧
      Info ⟨2, 3, [5]⟩ = Info ⟨2, 3, [5]⟩ :=
  c9_pure_query ⟨2, 3, [5]⟩ ⟨2, 3, [5]⟩ [] rfl rfl rfl

/-- Counterexample to Claim C10 as stated: on the freshly constructed
`New (2^64 - 1) 1` (word count wrapped to zero) a query panics with an
out-of-range index instead of returning `false`. -/
theorem c10_counterexample :
    ((New (2 ^ 64 - 1) 1).bind fun bf => MightContain bf [(0 : Byte)]) ≠ .ok false := by
  intro h
  have h0 : ((New (2 ^ 64 - 1) 1).bind fun bf => MightContain bf [(0 : Byte)]) =
      .error .indexOutOfRange := rfl
  rw [h0] at h
  cases h

/-- Claim C10, amended: for every `m > 0` and `k > 0` such that `m + 63`
does not overflow uint64, a freshly constructed `New m k` answers
`false` to every query: the zeroed array fails the very first of the
`k ≥ 1` probes. -/
theorem c10_fresh_filter_empty (m k : Nat) (bf : BloomFilter) (x : List Byte)
    (hov : m + 63 < 2 ^ 64) (hnew : New m k = .ok bf) :
    MightContain bf x = .ok false := by
  obtain ⟨hm, hk, rfl⟩ := New_ok_inv m k bf hnew
  have hguard : ¬((⟨m, k, List.replicate ((m + 63) % 2 ^ 64 / 64) 0⟩ : BloomFilter).m = 0 ∨
      (⟨m, k, List.replicate ((m + 63) % 2 ^ 64 / 64) 0⟩ : BloomFilter).k = 0) := by
    simp [hm, hk]
  rw [MightContain_eq _ _ hguard]
  show probeLoop (List.replicate ((m + 63) % 2 ^ 64 / 64) 0) (probeSeq m k x) = .ok false
  refine probeLoop_zeros _ _ (probeSeq_ne_nil _ _ _ hk) ?_
  intro pos hpos
  have hlt := probeSeq_mem_lt m k x hm pos hpos
  have hwc : (m + 63) % 2 ^ 64 = m + 63 := Nat.mod_eq_of_lt hov
  rw [hwc]
  omega

/-- Witness for the amended C10 at `New 1 1`. -/
theorem c10_witness : MightContain ⟨1, 1, [0]⟩ [] = .ok false :=
  c10_fresh_filter_empty 1 1 ⟨1, 1, [0]⟩ [] (by decide) rfl

end Bloom
